import Mathlib

/-!
Verification development for the parquet-grep repository.

The repository is a CLI tool that greps Apache Parquet files.  The pipeline
is: argument parsing with a smart-case rule (bin/args.js), a lazy per-row-group
match stream (bin/seachFiles.js), offset/limit windowing with a truncation
flag, and two renderers sharing a highlight/trim transform (bin/format.js).
An older single-pass main (bin/parquet-grep.js) collects matches per file with
per-file fault isolation.

Machine values are modelled shallowly: JavaScript strings become List Char,
row records become ordered association lists of field name to value, regular
expressions become abstract first-match functions (the regex engine is an
external collaborator), and fallible file reads become Except values.
-/

/-- Model of a JavaScript value stored in a parquet row cell: null or
undefined, a string, an integer (covering both JS safe integers and bigints;
non-integral doubles do not occur in the claims under verification), a
boolean, a nested array, or a nested object. -/
inductive JsVal where
  | vNull : JsVal
  | vUndef : JsVal
  | vStr : List Char → JsVal
  | vInt : Int → JsVal
  | vBool : Bool → JsVal
  | vArr : List JsVal → JsVal
  | vObj : List (String × JsVal) → JsVal
deriving Repr

/-- A row record: an ordered mapping from field name to value, as produced by
parquetReadObjects.  Object.values enumerates the values in this order. -/
abbrev Row : Type := List (String × JsVal)

/-- Decimal rendering of an integer, as JavaScript String(n) and
n.toString() produce it. -/
def intString (n : Int) : List Char :=
  (toString n).toList

/-- Rendering of a boolean, as JavaScript String(b) produces it. -/
def boolString (b : Bool) : List Char :=
  if b then "true".toList else "false".toList

mutual

/-- JavaScript String(v) conversion for a cell value: identity on strings,
canonical decimal for numbers and bigints, true/false for booleans, comma
join for arrays (with null and undefined elements rendered empty, as
Array.prototype.join does), and the object Object tag for plain objects. -/
def jsString : JsVal → List Char
  | JsVal.vNull => "null".toList
  | JsVal.vUndef => "undefined".toList
  | JsVal.vStr s => s
  | JsVal.vInt n => intString n
  | JsVal.vBool b => boolString b
  | JsVal.vArr xs => jsStringArr xs
  | JsVal.vObj _ => "[object Object]".toList

/-- Comma-separated join of array elements under String conversion. -/
def jsStringArr : List JsVal → List Char
  | [] => []
  | [x] => jsStringElem x
  | x :: xs => jsStringElem x ++ ',' :: jsStringArr xs

/-- One array element under Array.prototype.join: null and undefined render
as the empty string, everything else via String conversion. -/
def jsStringElem : JsVal → List Char
  | JsVal.vNull => []
  | JsVal.vUndef => []
  | v => jsString v

end

/-- JSON string-literal escaping of one character, as JSON.stringify applies
to the characters of a string value. -/
def jsonEscapeChar (c : Char) : List Char :=
  if c = '"' then ['\\', '"']
  else if c = '\\' then ['\\', '\\']
  else if c = '\n' then ['\\', 'n']
  else if c = '\r' then ['\\', 'r']
  else if c = '\t' then ['\\', 't']
  else [c]

mutual

/-- JSON.stringify of a cell value (keys of nested objects are emitted with
their quoted names; undefined inside arrays serialises as null, as in JS). -/
def jsonStringify : JsVal → List Char
  | JsVal.vNull => "null".toList
  | JsVal.vUndef => "null".toList
  | JsVal.vStr s => '"' :: s.flatMap jsonEscapeChar ++ ['"']
  | JsVal.vInt n => intString n
  | JsVal.vBool b => boolString b
  | JsVal.vArr xs => '[' :: jsonStringifyArr xs ++ [']']
  | JsVal.vObj fs => '\x7b' :: jsonStringifyObj fs ++ ['\x7d']

/-- Comma-separated JSON serialisation of array elements. -/
def jsonStringifyArr : List JsVal → List Char
  | [] => []
  | [x] => jsonStringify x
  | x :: xs => jsonStringify x ++ ',' :: jsonStringifyArr xs

/-- Comma-separated JSON serialisation of object fields. -/
def jsonStringifyObj : List (String × JsVal) → List Char
  | [] => []
  | [f] => '"' :: f.1.toList.flatMap jsonEscapeChar ++ '"' :: ':' :: jsonStringify f.2
  | f :: fs =>
      '"' :: f.1.toList.flatMap jsonEscapeChar ++ '"' :: ':' :: jsonStringify f.2
        ++ ',' :: jsonStringifyObj fs

end

namespace Args

/-- Test for an uppercase letter in the query, embedding hasUpperCase from
bin/args.js: the regular expression matches only the ASCII range A to Z
(codepoints 65 to 90). -/
def hasUpperCase (s : String) : Bool :=
  s.toList.any fun c => decide (65 ≤ c.toNat ∧ c.toNat ≤ 90)

/-- Smart-case decision of parseArgs in bin/args.js: case-insensitive when
forced by the -i flag or when the query has no uppercase letter. -/
def smartCaseInsensitive (forceInsensitive : Bool) (query : String) : Bool :=
  forceInsensitive || !hasUpperCase query

/-- Whitespace as trimmed by parseInt before reading digits (the common
ASCII white space characters; the rows under test contain no exotic
Unicode spaces). -/
def isJsSpace (c : Char) : Bool :=
  decide (c.toNat = 32 ∨ c.toNat = 9 ∨ c.toNat = 10 ∨ c.toNat = 13 ∨
    c.toNat = 11 ∨ c.toNat = 12)

/-- Decimal digit test, codepoints 48 to 57. -/
def isDigitChar (c : Char) : Bool :=
  decide (48 ≤ c.toNat ∧ c.toNat ≤ 57)

/-- Value of a list of decimal digits, most significant first. -/
def natOfDigits (ds : List Char) : Nat :=
  ds.foldl (fun a c => 10 * a + (c.toNat - 48)) 0

/-- JavaScript parseInt(s, 10): skip leading whitespace, read an optional
sign, then the longest run of leading decimal digits; NaN (none) when that
run is empty, otherwise the signed value of the run.  Trailing characters
are ignored, so a string such as 3.7 parses to 3. -/
def jsParseInt (s : String) : Option Int :=
  let l := s.toList.dropWhile isJsSpace
  let neg : Bool := l.head? == some '-'
  let rest := if l.head? == some '-' || l.head? == some '+' then l.tail else l
  let ds := rest.takeWhile isDigitChar
  if ds.isEmpty then none
  else some ((if neg then -1 else 1) * (natOfDigits ds : Int))

/-- Validation of the -m and limit flag value in parseArgs of bin/args.js:
parseInt the value, then reject (exit 1, modelled as the error branch) when
the result is NaN or negative; otherwise the parsed value becomes the
limit. -/
def parseLimitValue (s : String) : Except Unit Nat :=
  match jsParseInt s with
  | none => Except.error ()
  | some v => if v < 0 then Except.error () else Except.ok v.toNat

/-- A canonical non-negative integer numeral: non-empty and consisting of
decimal digits only. -/
def isNonNegIntNumeral (s : String) : Bool :=
  !s.toList.isEmpty && s.toList.all isDigitChar

end Args

namespace SearchFiles

/-- A compiled regular expression is modelled abstractly by its test
predicate on a stringified cell (regex.test in bin/seachFiles.js). -/
def RegexTest : Type := List Char → Bool

/-- Embedding of rowMatches from bin/seachFiles.js: iterate over the record
field values in order, skip null and undefined cells, stringify the rest
with String conversion and test against the pattern, short-circuiting on the
first satisfied cell. -/
def rowMatches (test : RegexTest) (row : Row) : Bool :=
  row.any fun f =>
    match f.2 with
    | JsVal.vNull => false
    | JsVal.vUndef => false
    | v => test (jsString v)

/-- The accept decision of the generator loop in searchFile of
bin/seachFiles.js: a row is yielded when invert flips the rowMatches
result. -/
def acceptRow (test : RegexTest) (invert : Bool) (row : Row) : Bool :=
  if invert then !rowMatches test row else rowMatches test row

/-- The match stream produced from one row group in searchFile of
bin/seachFiles.js: each row of the group data at local index i is paired
with rowOffset rowStart plus i and yielded when accepted. -/
def groupMatches (test : RegexTest) (invert : Bool) (rowStart : Nat)
    (g : List Row) : List (Nat × Row) :=
  (g.enumFrom rowStart).filter fun p => acceptRow test invert p.2

/-- The per-row-group loop of searchFile in bin/seachFiles.js: groups are
scanned in order, an accumulated rowOffset starts at the sum of the row
counts of the prior groups (num_rows of a group being the length of its
materialised data), and accepted rows are yielded in order. -/
def searchGroups (test : RegexTest) (invert : Bool) :
    Nat → List (List Row) → List (Nat × Row)
  | _, [] => []
  | rowOffset, g :: gs =>
      groupMatches test invert rowOffset g
        ++ searchGroups test invert (rowOffset + g.length) gs

/-- The full match stream of searchFile in bin/seachFiles.js for a file
whose row groups materialise to the given lists of rows, starting at
rowOffset zero. -/
def searchFile (test : RegexTest) (invert : Bool)
    (groups : List (List Row)) : List (Nat × Row) :=
  searchGroups test invert 0 groups

end SearchFiles

namespace Window

/-- Modelled from the spec: the Window Controller of section 4.3 (the
offset/limit/truncation loop of the current bin/parquet-grep.js main, whose
file is not among the sources here; only its argument parsing, tests and
README remain).  Per file the controller consumes matches one at a time:
while a remaining-skip counter is positive it drops the match; with limit
zero it emits every further match and never truncates; with a positive
limit it emits until the emitted count reaches the limit and, on the next
match beyond it, stops without emitting and reports truncated.  Source
exhaustion in any earlier state reports truncated false. -/
def windowGo {α : Type} (skip limit emitted : Nat) :
    List α → List α × Bool
  | [] => ([], false)
  | m :: rest =>
      if 0 < skip then windowGo (skip - 1) limit emitted rest
      else if limit = 0 then
        let r := windowGo 0 0 0 rest
        (m :: r.1, r.2)
      else if emitted < limit then
        let r := windowGo 0 limit (emitted + 1) rest
        (m :: r.1, r.2)
      else ([], true)

/-- Modelled from the spec: the per-file window of section 4.3 applied to a
file's accepted-match sequence, starting in SKIPPING when offset is
positive and with no matches emitted yet. -/
def windowController {α : Type} (offset limit : Nat) (ms : List α) :
    List α × Bool :=
  windowGo offset limit 0 ms

end Window

namespace Main

/-- Substring test of the older rowMatches in bin/parquet-grep.js:
String(cell).includes(query), checked on every tail. -/
def listContains (hay pat : List Char) : Bool :=
  hay.tails.any fun t => pat.isPrefixOf t

/-- ASCII lowering of one character, the fragment of toLowerCase exercised
by the queries under test. -/
def charToLower (c : Char) : Char :=
  if 65 ≤ c.toNat ∧ c.toNat ≤ 90 then Char.ofNat (c.toNat + 32) else c

/-- Lowering of a whole string. -/
def toLowerList (l : List Char) : List Char :=
  l.map charToLower

/-- Embedding of rowMatches from bin/parquet-grep.js: lower the query when
case-insensitive, then look for it as a substring of each non-null
stringified cell, short-circuiting on the first hit. -/
def rowMatchesMain (query : List Char) (caseInsensitive : Bool)
    (row : Row) : Bool :=
  let searchQuery := if caseInsensitive then toLowerList query else query
  row.any fun f =>
    match f.2 with
    | JsVal.vNull => false
    | JsVal.vUndef => false
    | v =>
        let s := jsString v
        listContains (if caseInsensitive then toLowerList s else s) searchQuery

/-- The match-collection loop of searchFile in bin/parquet-grep.js over the
decoded data: each row at index i becomes a match with rowOffset i when
rowMatchesMain accepts it. -/
def collectMatches (query : List Char) (caseInsensitive : Bool)
    (rows : List Row) : List (Nat × Row) :=
  (rows.enumFrom 0).filter fun p => rowMatchesMain query caseInsensitive p.2

/-- Embedding of searchFile in bin/parquet-grep.js: the file read (open plus
decode) either fails with a cause, in which case the catch block logs an
error naming the file and the function returns the empty match list, or
yields the decoded rows which are then grepped.  The second component is
the list of error-log entries, identified by file name. -/
def searchFileMain (query : List Char) (caseInsensitive : Bool)
    (name : String) (src : Except String (List Row)) :
    List (Nat × Row) × List String :=
  match src with
  | Except.error _ => ([], [name])
  | Except.ok rows => (collectMatches query caseInsensitive rows, [])

/-- JavaScript Map.set on an association list: replace the value in place
when the key is present, append a new entry otherwise. -/
def mapSet {β : Type} (m : List (String × β)) (k : String) (v : β) :
    List (String × β) :=
  if m.any (fun e => e.1 = k) then
    m.map fun e => if e.1 = k then (k, v) else e
  else m ++ [(k, v)]

/-- The per-file loop of main in bin/parquet-grep.js: fold over the file
list, search each file, record its matches under its name when non-empty
(the allMatches map), and accumulate the error log. -/
def mainLoop (query : List Char) (caseInsensitive : Bool)
    (acc : List (String × List (Nat × Row)) × List String) :
    List (String × Except String (List Row)) →
      List (String × List (Nat × Row)) × List String
  | [] => acc
  | f :: rest =>
      let r := searchFileMain query caseInsensitive f.1 f.2
      mainLoop query caseInsensitive
        ((if r.1.isEmpty then acc.1 else mapSet acc.1 f.1 r.1),
          acc.2 ++ r.2) rest

/-- The whole grouped-match collection of main in bin/parquet-grep.js,
started from an empty map and an empty log. -/
def runMain (query : List Char) (caseInsensitive : Bool)
    (files : List (String × Except String (List Row))) :
    List (String × List (Nat × Row)) × List String :=
  mainLoop query caseInsensitive ([], []) files

end Main

namespace Format

/-- A compiled regular expression is modelled for the presentation layer by
its first-match function: on a text it returns the index and length of the
first match, or none (String.prototype.match with index). -/
def RegexMatch : Type := List Char → Option (Nat × Nat)

/-- The ellipsis marker inserted by trimming. -/
def dots : List Char := ['.', '.', '.']

/-- JavaScript String.prototype.slice with its clamping and negative-index
wrapping semantics over List Char. -/
def jsSlice (l : List Char) (s e : Int) : List Char :=
  let len : Int := l.length
  let s1 : Int := if s < 0 then max (len + s) 0 else min s len
  let e1 : Int := if e < 0 then max (len + e) 0 else min e len
  (l.drop s1.toNat).take (e1 - s1).toNat

/-- Embedding of trimToContext from bin/format.js.  A text within the
budget (or a budget of zero, meaning no trim) passes unchanged.  Otherwise
the first regex match anchors a symmetric context window of
floor((maxLength minus match length) divided by 2) characters on each side
(Math.floor, hence floor division on integers); the window collapses toward
the far edge when the match sits near the start or the end, and ellipsis
markers are added on each side still cut off.  With no match the text is
cut to maxLength minus 3 plus a trailing marker. -/
def trimToContext (rmatch : RegexMatch) (maxLength : Nat)
    (text : List Char) : List Char :=
  if maxLength = 0 ∨ text.length ≤ maxLength then text
  else
    match rmatch text with
    | none => jsSlice text 0 ((maxLength : Int) - 3) ++ dots
    | some (i, mlen) =>
        let len : Int := text.length
        let matchStart : Int := i
        let matchEnd : Int := matchStart + mlen
        let availableSpace : Int := (maxLength : Int) - mlen
        let contextEach : Int := Int.fdiv availableSpace 2
        let start0 : Int := max 0 (matchStart - contextEach)
        let end0 : Int := min len (matchEnd + contextEach)
        let start1 : Int :=
          if start0 = 0 then start0
          else if end0 = len then max 0 (len - (maxLength : Int) + 3)
          else start0
        let end1 : Int :=
          if start0 = 0 then min len ((maxLength : Int) - 3) else end0
        let core := jsSlice text start1 end1
        let withLead := if 0 < start1 then dots ++ core else core
        if end1 < len then withLead ++ dots else withLead

/-- Embedding of highlightMatches from bin/format.js.  The global
regex-replace that wraps every matched span in the ANSI reverse-video
markers is an external collaborator, abstracted as applyHl; the function
returns the text unchanged under invert, without a regex, or when stdout is
not a terminal (colorize false). -/
def highlightMatches (applyHl : List Char → List Char) (colorize : Bool)
    (hasRegex : Bool) (invert : Bool) (text : List Char) : List Char :=
  if invert || !hasRegex || !colorize then text else applyHl text

/-- The quote-stripping replace of escapeMarkdownCell in bin/format.js: the
anchored pattern quote dot-star quote strips one leading and one trailing
double quote, and only matches when the interior has no line terminator
(dot does not match those). -/
def stripOuterQuotes (l : List Char) : List Char :=
  if 2 ≤ l.length ∧ l.head? = some '"' ∧ l.getLast? = some '"' ∧
      ((l.drop 1).dropLast.all fun c => !(c = '\n' ∨ c = '\r')) then
    (l.drop 1).dropLast
  else l

/-- The pipe-escaping replace of escapeMarkdownCell in bin/format.js: every
pipe character is prefixed with a backslash so a cell cannot break the
table. -/
def escapePipes (l : List Char) : List Char :=
  l.flatMap fun c => if c = '|' then ['\\', '|'] else [c]

/-- Embedding of escapeMarkdownCell from bin/format.js: null and undefined
render as the literal null; other values are stringified (bigints by
toString, the rest by JSON.stringify, both covered by jsonStringify here),
stripped of outer quotes, trimmed to context when a regex is present and the
trim budget positive, highlighted (a no-op under invert), and
pipe-escaped. -/
def escapeMarkdownCell (applyHl : List Char → List Char) (colorize : Bool)
    (rmatch : Option RegexMatch) (invert : Bool) (trim : Nat)
    (v : JsVal) : List Char :=
  match v with
  | JsVal.vNull => "null".toList
  | JsVal.vUndef => "null".toList
  | v =>
      let str := jsonStringify v
      let cleanStr := stripOuterQuotes str
      let trimmedStr :=
        match rmatch with
        | some rm => if 0 < trim then trimToContext rm trim cleanStr else cleanStr
        | none => cleanStr
      let highlighted :=
        match rmatch with
        | some _ => highlightMatches applyHl colorize true invert trimmedStr
        | none => trimmedStr
      escapePipes highlighted

mutual

/-- Embedding of highlightObject from bin/format.js: strings are trimmed to
context (when a regex is present and the budget positive) and then
highlighted; arrays and objects are mapped recursively; null, undefined and
other scalars pass through. -/
def highlightObject (applyHl : List Char → List Char) (colorize : Bool)
    (rmatch : Option RegexMatch) (invert : Bool) (trim : Nat) :
    JsVal → JsVal
  | JsVal.vStr s =>
      let trimmedStr :=
        match rmatch with
        | some rm => if 0 < trim then trimToContext rm trim s else s
        | none => s
      JsVal.vStr
        (highlightMatches applyHl colorize rmatch.isSome invert trimmedStr)
  | JsVal.vArr xs =>
      JsVal.vArr (highlightObjectArr applyHl colorize rmatch invert trim xs)
  | JsVal.vObj fs =>
      JsVal.vObj (highlightObjectFields applyHl colorize rmatch invert trim fs)
  | v => v

/-- Recursion of highlightObject into an array. -/
def highlightObjectArr (applyHl : List Char → List Char) (colorize : Bool)
    (rmatch : Option RegexMatch) (invert : Bool) (trim : Nat) :
    List JsVal → List JsVal
  | [] => []
  | x :: xs =>
      highlightObject applyHl colorize rmatch invert trim x
        :: highlightObjectArr applyHl colorize rmatch invert trim xs

/-- Recursion of highlightObject into the fields of an object. -/
def highlightObjectFields (applyHl : List Char → List Char) (colorize : Bool)
    (rmatch : Option RegexMatch) (invert : Bool) (trim : Nat) :
    List (String × JsVal) → List (String × JsVal)
  | [] => []
  | f :: fs =>
      (f.1, highlightObject applyHl colorize rmatch invert trim f.2)
        :: highlightObjectFields applyHl colorize rmatch invert trim fs

end

/-- The value transformation of formatJsonlOutput in bin/format.js: the row
is run through highlightObject only when a regex is present and invert is
off; otherwise (in particular under invert) it is emitted as is. -/
def jsonlValue (applyHl : List Char → List Char) (colorize : Bool)
    (rmatch : Option RegexMatch) (invert : Bool) (trim : Nat)
    (row : Row) : Row :=
  if rmatch.isSome && !invert then
    highlightObjectFields applyHl colorize rmatch invert trim row
  else row

end Format

/-- The error-log entry contributed by one file of the main loop: the file
name when its read failed, nothing otherwise. -/
def Main.errLogName (f : String × Except String (List Row)) : Option String :=
  match f.2 with
  | Except.error _ => some f.1
  | Except.ok _ => none

/-- A one-field sample row used by concrete instantiations. -/
def sampleRow (s : List Char) : Row := [("a", JsVal.vStr s)]

/-- A two-group sample file used by concrete instantiations. -/
def sampleGroups : List (List Row) := [[sampleRow ['x']], [sampleRow ['y']]]
/-- C2: for every record and compiled pattern, the accept decision with
invert on is the boolean negation of the decision with invert off. -/
theorem claim_C2_invert_law (test : SearchFiles.RegexTest) (row : Row) :
    SearchFiles.acceptRow test true row = !SearchFiles.acceptRow test false row := by
  simp [SearchFiles.acceptRow]

/-- C4: the compiled pattern is case-insensitive when the -i flag is given
or the query has no uppercase letter (codepoints 65 to 90, the range the
detection regex tests), and case-sensitive when the query has an uppercase
letter and -i is absent. -/
theorem claim_C4_smart_case (q : String) (force : Bool) :
    ((force = true ∨ ∀ c ∈ q.toList, ¬(65 ≤ c.toNat ∧ c.toNat ≤ 90)) →
        Args.smartCaseInsensitive force q = true)
    ∧ ((∃ c ∈ q.toList, 65 ≤ c.toNat ∧ c.toNat ≤ 90) → force = false →
        Args.smartCaseInsensitive force q = false) := by
  constructor
  · rintro (hf | hup)
    · simp [Args.smartCaseInsensitive, hf]
    · simp only [Args.smartCaseInsensitive, Args.hasUpperCase, Bool.or_eq_true,
        Bool.not_eq_true']
      right
      simp only [List.any_eq_false, decide_eq_true_eq]
      exact hup
  · rintro ⟨c, hc, hup⟩ hf
    subst hf
    simp only [Args.smartCaseInsensitive, Args.hasUpperCase, Bool.false_or,
      Bool.not_eq_false', List.any_eq_true]
    exact ⟨c, hc, by simpa using hup⟩

theorem claim_C4_witness :
    ((∃ c ∈ "aBc".toList, 65 ≤ c.toNat ∧ c.toNat ≤ 90) ∧
      Args.smartCaseInsensitive false "aBc" = false) :=
  ⟨⟨'B', by decide, by decide⟩,
    (claim_C4_smart_case "aBc" false).2 ⟨'B', by decide, by decide⟩ rfl⟩

/-- C10: a query with no character in the ASCII uppercase range is treated
case-insensitively even without the -i flag, because the uppercase
detection tests only the range A to Z; uppercase letters outside ASCII do
not count. -/
theorem claim_C10_ascii_only (q : String)
    (h : ∀ c ∈ q.toList, ¬(65 ≤ c.toNat ∧ c.toNat ≤ 90)) :
    Args.smartCaseInsensitive false q = true := by
  simp only [Args.smartCaseInsensitive, Args.hasUpperCase, Bool.false_or,
    Bool.not_eq_true']
  simp only [List.any_eq_false, decide_eq_true_eq]
  exact h

theorem claim_C10_witness :
    (∀ c ∈ "ÄÖÜ".toList, ¬(65 ≤ c.toNat ∧ c.toNat ≤ 90)) ∧
      Args.smartCaseInsensitive false "ÄÖÜ" = true :=
  ⟨by decide, claim_C10_ascii_only "ÄÖÜ" (by decide)⟩

/-- C8: a record whose field values are all null or undefined never matches
under normal mode and always matches under invert mode, for every
pattern. -/
theorem claim_C8_all_null (test : SearchFiles.RegexTest) (row : Row)
    (h : ∀ f ∈ row, f.2 = JsVal.vNull ∨ f.2 = JsVal.vUndef) :
    SearchFiles.acceptRow test false row = false ∧
      SearchFiles.acceptRow test true row = true := by
  have hm : SearchFiles.rowMatches test row = false := by
    simp only [SearchFiles.rowMatches, List.any_eq_false]
    intro f hf
    rcases h f hf with h2 | h2 <;> rw [h2] <;> simp
  constructor <;> simp [SearchFiles.acceptRow, hm]

theorem claim_C8_witness :
    (∀ f ∈ ([("a", JsVal.vNull), ("b", JsVal.vUndef)] : Row),
        f.2 = JsVal.vNull ∨ f.2 = JsVal.vUndef) ∧
      SearchFiles.acceptRow (fun _ => true) false
        [("a", JsVal.vNull), ("b", JsVal.vUndef)] = false ∧
      SearchFiles.acceptRow (fun _ => true) true
        [("a", JsVal.vNull), ("b", JsVal.vUndef)] = true := by
  have h : ∀ f ∈ ([("a", JsVal.vNull), ("b", JsVal.vUndef)] : Row),
      f.2 = JsVal.vNull ∨ f.2 = JsVal.vUndef := by
    intro f hf
    simp only [List.mem_cons, List.not_mem_nil, or_false] at hf
    rcases hf with hf | hf <;> rw [hf]
    · exact Or.inl rfl
    · exact Or.inr rfl
  exact ⟨h, (claim_C8_all_null (fun _ => true) _ h).1,
    (claim_C8_all_null (fun _ => true) _ h).2⟩
/-- Characters are equal exactly when their codepoints are. -/
theorem char_ne_of_toNat_ne {c d : Char} (h : c.toNat ≠ d.toNat) : c ≠ d :=
  fun hcd => h (hcd ▸ rfl)

/-- C7 counterexample: the value 3.7 is not a non-negative integer numeral,
yet the limit validation accepts it as 3 instead of aborting, because
parseInt reads only the leading integer prefix. -/
theorem claim_C7_cex :
    Args.parseLimitValue "3.7" = Except.ok 3 ∧
      Args.isNonNegIntNumeral "3.7" = false :=
  ⟨rfl, rfl⟩

/-- Acceptance path of the limit validation: every non-negative decimal
numeral parses to its value and passes the check. -/
theorem parseLimit_accepts_numeral (s : String)
    (h : Args.isNonNegIntNumeral s = true) :
    Args.parseLimitValue s = Except.ok (Args.natOfDigits s.toList) := by
  simp only [Args.isNonNegIntNumeral, Bool.and_eq_true, Bool.not_eq_true',
    List.all_eq_true] at h
  obtain ⟨hne, hall⟩ := h
  obtain ⟨c, t, hct⟩ : ∃ c t, s.toList = c :: t := by
    cases hl : s.toList with
    | nil => rw [hl] at hne; simp at hne
    | cons c t => exact ⟨c, t, rfl⟩
  have hcdig := hall c (by rw [hct]; exact List.mem_cons_self c t)
  have hcd : 48 ≤ c.toNat ∧ c.toNat ≤ 57 := by
    simpa [Args.isDigitChar] using hcdig
  have hcsp : Args.isJsSpace c = false := by
    simp only [Args.isJsSpace, decide_eq_false_iff_not]
    omega
  have h45 : Char.toNat '-' = 45 := by decide
  have h43 : Char.toNat '+' = 43 := by decide
  have hcminus : c ≠ '-' := char_ne_of_toNat_ne (by omega)
  have hcplus : c ≠ '+' := char_ne_of_toNat_ne (by omega)
  have htake : (c :: t).takeWhile Args.isDigitChar = c :: t := by
    rw [List.takeWhile_eq_self_iff]
    intro x hx
    exact hall x (by rw [hct]; exact hx)
  have hm1 : (some c == some '-') = false := by
    simp [hcminus]
  have hm2 : (some c == some '+') = false := by
    simp [hcplus]
  have hdrop2 : List.dropWhile Args.isJsSpace (c :: t) = c :: t := by
    rw [List.dropWhile_cons, hcsp]
    simp
  rw [Args.parseLimitValue, Args.jsParseInt, hct]
  simp [hdrop2, hm1, hm2, htake]

/-- NaN path of the limit validation: a value containing no decimal digit
at all makes parseInt return NaN, so the validation rejects it. -/
theorem parseLimit_rejects_nodigits (s : String)
    (h : ∀ c ∈ s.toList, Args.isDigitChar c = false) :
    Args.parseLimitValue s = Except.error () := by
  have hnone : Args.jsParseInt s = none := by
    rw [Args.jsParseInt]
    set l0 := s.toList.dropWhile Args.isJsSpace with hl0
    set rest := if l0.head? == some '-' || l0.head? == some '+' then l0.tail
      else l0 with hrest
    have hsub : rest.Sublist s.toList := by
      rw [hrest]
      split
      · exact (List.tail_sublist _).trans (by rw [hl0]; exact List.dropWhile_sublist _)
      · rw [hl0]; exact List.dropWhile_sublist _
    have hempty : rest.takeWhile Args.isDigitChar = [] := by
      cases hl : rest.takeWhile Args.isDigitChar with
      | nil => rfl
      | cons c t =>
        exfalso
        have hcmem : c ∈ rest.takeWhile Args.isDigitChar := by
          rw [hl]; exact List.mem_cons_self c t
        have hdig := List.mem_takeWhile_imp hcmem
        have hmem : c ∈ s.toList :=
          List.Sublist.mem (List.Sublist.mem hcmem (List.takeWhile_sublist _)) hsub
        rw [h c hmem] at hdig
        exact Bool.false_ne_true hdig
    rw [hempty]
    rfl
  rw [Args.parseLimitValue, hnone]

/-- Negative path of the limit validation: a negative decimal numeral
parses below zero, so the validation rejects it. -/
theorem parseLimit_rejects_negative (s : String) (ds : List Char)
    (hs : s.toList = '-' :: ds) (hall : ds.all Args.isDigitChar = true)
    (hpos : 0 < Args.natOfDigits ds) :
    Args.parseLimitValue s = Except.error () := by
  have hminus : Args.isJsSpace '-' = false := by decide
  have hdrop : s.toList.dropWhile Args.isJsSpace = '-' :: ds := by
    rw [hs, List.dropWhile_cons, hminus]
    simp
  have htake : ds.takeWhile Args.isDigitChar = ds :=
    List.takeWhile_eq_self_iff.2 (List.all_eq_true.1 hall)
  have hdne : ds ≠ [] := by
    intro h0
    rw [h0] at hpos
    simp [Args.natOfDigits] at hpos
  have hjson : Args.jsParseInt s = some (-(Args.natOfDigits ds : Int)) := by
    rw [Args.jsParseInt, hdrop]
    simp [htake, hdne]
  have hneg : (-(Args.natOfDigits ds : Int)) < 0 := by
    have hp : (0 : Int) < Args.natOfDigits ds := by exact_mod_cast hpos
    omega
  simp [Args.parseLimitValue, hjson, hneg]

/-- The limit validation rejects exactly when parseInt yields NaN or a
negative value. -/
theorem parseLimit_error_iff (s : String) :
    Args.parseLimitValue s = Except.error () ↔
      Args.jsParseInt s = none ∨ ∃ v : Int, Args.jsParseInt s = some v ∧ v < 0 := by
  rcases hj : Args.jsParseInt s with _ | v
  · simp [Args.parseLimitValue, hj]
  · by_cases hv : v < 0
    · simp [Args.parseLimitValue, hj, hv]
    · simp [Args.parseLimitValue, hj, hv]

/-- C7 amended: the validation aborts (exit classification 1, the error
branch) exactly when parseInt of the limit or offset value is NaN or
negative: every non-negative decimal numeral is accepted with its decimal
value, a value with no digit at all is rejected as NaN, and a negative
numeral is rejected; but the original claim's full strength fails, since
integer-prefixed non-integer values such as 3.7 are accepted truncated
rather than rejected. -/
theorem claim_C7_amended (s : String) :
    (Args.isNonNegIntNumeral s = true →
        Args.parseLimitValue s = Except.ok (Args.natOfDigits s.toList))
    ∧ ((∀ c ∈ s.toList, Args.isDigitChar c = false) →
        Args.parseLimitValue s = Except.error ())
    ∧ (∀ ds : List Char, s.toList = '-' :: ds → ds.all Args.isDigitChar = true →
        0 < Args.natOfDigits ds → Args.parseLimitValue s = Except.error ())
    ∧ (Args.parseLimitValue s = Except.error () ↔
        Args.jsParseInt s = none ∨ ∃ v : Int, Args.jsParseInt s = some v ∧ v < 0) :=
  ⟨fun h => parseLimit_accepts_numeral s h,
    fun h => parseLimit_rejects_nodigits s h,
    fun ds h1 h2 h3 => parseLimit_rejects_negative s ds h1 h2 h3,
    parseLimit_error_iff s⟩

theorem claim_C7_witness :
    (Args.isNonNegIntNumeral "42" = true ∧
        Args.parseLimitValue "42" = Except.ok 42)
    ∧ ((∀ c ∈ "abc".toList, Args.isDigitChar c = false) ∧
        Args.parseLimitValue "abc" = Except.error ())
    ∧ ("-5".toList = '-' :: ['5'] ∧ ['5'].all Args.isDigitChar = true ∧
        0 < Args.natOfDigits ['5'] ∧
        Args.parseLimitValue "-5" = Except.error ()) :=
  ⟨⟨rfl, (claim_C7_amended "42").1 rfl⟩,
    ⟨by decide, (claim_C7_amended "abc").2.1 (by decide)⟩,
    ⟨rfl, rfl, by decide, (claim_C7_amended "-5").2.2.1 ['5'] rfl rfl (by decide)⟩⟩
/-- Skipping consumes exactly the first skip matches of the stream. -/
theorem windowGo_skip {α : Type} (lim em : Nat) :
    ∀ (ms : List α) (sk : Nat),
      Window.windowGo sk lim em ms = Window.windowGo 0 lim em (ms.drop sk) := by
  intro ms
  induction ms with
  | nil => intro sk; simp [Window.windowGo]
  | cons m rest ih =>
    intro sk
    cases sk with
    | zero => simp
    | succ k =>
      rw [Window.windowGo]
      simp only [Nat.zero_lt_succ, if_true, Nat.succ_sub_one, List.drop_succ_cons]
      exact ih k

/-- With limit zero the controller emits the whole remaining stream and
never truncates. -/
theorem windowGo_unbounded {α : Type} :
    ∀ (ms : List α) (em : Nat), Window.windowGo 0 0 em ms = (ms, false) := by
  intro ms
  induction ms with
  | nil => intro em; simp [Window.windowGo]
  | cons m rest ih =>
    intro em
    rw [Window.windowGo]
    simp [ih rest.length.succ, ih 0]

/-- With a positive limit the controller emits a prefix of the remaining
capacity and truncates exactly when more matches remain. -/
theorem windowGo_pos {α : Type} (lim : Nat) (hl : 0 < lim) :
    ∀ (ms : List α) (em : Nat),
      Window.windowGo 0 lim em ms =
        (ms.take (lim - em), decide (lim - em < ms.length)) := by
  intro ms
  induction ms with
  | nil => intro em; simp [Window.windowGo]
  | cons m rest ih =>
    intro em
    rw [Window.windowGo]
    simp only [Nat.lt_irrefl, if_false, Nat.ne_of_gt hl, if_neg (Nat.not_lt_zero 0)]
    by_cases hem : em < lim
    · rw [if_pos hem, ih (em + 1)]
      have h1 : lim - em = (lim - (em + 1)) + 1 := by omega
      rw [h1, List.take_succ_cons]
      refine Prod.ext rfl ?_
      simp only [List.length_cons]
      exact decide_eq_decide.mpr (by omega)
    · rw [if_neg hem]
      have h1 : lim - em = 0 := by omega
      simp [h1]

/-- C1 counterexample: with offset 1 and limit 0 (unbounded) the window
emits only the matches from position 1 on, not every accepted match as the
claim states. -/
theorem claim_C1_cex :
    (Window.windowController 1 0 [10, 20]).1 = [20] ∧
      (Window.windowController 1 0 [10, 20]).1 ≠ [10, 20] := by
  constructor
  · rfl
  · intro h
    exact absurd (congrArg List.length h) (by decide)

/-- C1 amended: with a positive limit the window emits at most limit
matches and truncates exactly when an accepted match existed beyond the
emitted window; with limit zero every accepted match from position offset
on is emitted and truncated is false. -/
theorem claim_C1_amended {α : Type} (offset lim : Nat) (ms : List α) :
    (0 < lim →
      (Window.windowController offset lim ms).1.length ≤ lim ∧
        ((Window.windowController offset lim ms).2 = true ↔
          offset + lim < ms.length))
    ∧ (lim = 0 →
      (Window.windowController offset lim ms).1 = ms.drop offset ∧
        (Window.windowController offset lim ms).2 = false) := by
  constructor
  · intro hl
    rw [Window.windowController, windowGo_skip, windowGo_pos lim hl _ 0]
    constructor
    · simp only [Nat.sub_zero, List.length_take]
      omega
    · simp only [Nat.sub_zero, decide_eq_true_eq, List.length_drop]
      omega
  · intro h0
    subst h0
    rw [Window.windowController, windowGo_skip, windowGo_unbounded]
    exact ⟨rfl, rfl⟩

theorem claim_C1_witness :
    0 < 2 ∧ (Window.windowController 1 2 ([1, 2, 3, 4, 5] : List Nat)).1.length ≤ 2 ∧
      ((Window.windowController 1 2 ([1, 2, 3, 4, 5] : List Nat)).2 = true ↔ 1 + 2 < 5) :=
  ⟨by decide, ((claim_C1_amended 1 2 [1, 2, 3, 4, 5]).1 (by decide)).1,
    ((claim_C1_amended 1 2 [1, 2, 3, 4, 5]).1 (by decide)).2⟩
/-- The first components of an enumerated stream are strictly increasing. -/
theorem enumFrom_fst_pairwise {α : Type} :
    ∀ (l : List α) (n : Nat),
      List.Pairwise (fun p q : Nat × α => p.1 < q.1) (l.enumFrom n) := by
  intro l
  induction l with
  | nil => intro n; simp
  | cons a t ih =>
    intro n
    simp only [List.enumFrom]
    refine List.Pairwise.cons ?_ (ih (n + 1))
    intro q hq
    have := (List.mk_mem_enumFrom_iff_le_and_getElem?_sub (x := q.2)).1 (by simpa using hq)
    omega

/-- The generator stream over a list of groups equals the filtered
enumeration of their concatenation from the same starting offset. -/
theorem searchGroups_eq_filter (test : SearchFiles.RegexTest) (invert : Bool) :
    ∀ (gs : List (List Row)) (off : Nat),
      SearchFiles.searchGroups test invert off gs =
        (gs.flatten.enumFrom off).filter
          (fun p => SearchFiles.acceptRow test invert p.2) := by
  intro gs
  induction gs with
  | nil => intro off; simp [SearchFiles.searchGroups]
  | cons g rest ih =>
    intro off
    rw [SearchFiles.searchGroups, SearchFiles.groupMatches, ih, List.flatten_cons,
      List.enumFrom_append, List.filter_append]

/-- C3: the rowOffsets of the matches emitted for a file are strictly
increasing, each emitted rowOffset indexes exactly its record in the
concatenation of the row groups (the logical row order of the file), and
the first record of group g, when accepted, is emitted with rowOffset equal
to the sum of the row counts of the prior groups. -/
theorem claim_C3_row_offsets (test : SearchFiles.RegexTest) (invert : Bool)
    (groups : List (List Row)) :
    List.Pairwise (· < ·)
        ((SearchFiles.searchFile test invert groups).map Prod.fst)
    ∧ (∀ p ∈ SearchFiles.searchFile test invert groups,
        groups.flatten[p.1]? = some p.2)
    ∧ (∀ (g : Nat) (r : Row) (rs : List Row), groups[g]? = some (r :: rs) →
        SearchFiles.acceptRow test invert r = true →
        ((((groups.take g).map List.length).sum, r) ∈
          SearchFiles.searchFile test invert groups)) := by
  refine ⟨?_, ?_, ?_⟩
  · rw [SearchFiles.searchFile, searchGroups_eq_filter, List.pairwise_map]
    exact List.Pairwise.filter _ (enumFrom_fst_pairwise groups.flatten 0)
  · intro p hp
    rw [SearchFiles.searchFile, searchGroups_eq_filter] at hp
    have hmem := List.mem_of_mem_filter hp
    obtain ⟨i, r⟩ := p
    have := (List.mk_mem_enumFrom_iff_le_and_getElem?_sub (n := 0)).1 hmem
    simpa using this.2
  · intro g r rs hg hacc
    have hlt : g < groups.length := by
      rcases List.getElem?_eq_some.1 hg with ⟨h, _⟩
      exact h
    have hdropg : groups.drop g = (r :: rs) :: groups.drop (g + 1) := by
      rw [List.drop_eq_getElem_cons hlt]
      rcases List.getElem?_eq_some.1 hg with ⟨h, heq⟩
      rw [heq]
    have hsplit : groups.flatten = (groups.take g).flatten ++ (groups.drop g).flatten := by
      rw [← List.flatten_append, List.take_append_drop]
    have hlen : (groups.take g).flatten.length = ((groups.take g).map List.length).sum := by
      rw [List.length_flatten]
    have hget : groups.flatten[((groups.take g).map List.length).sum]? = some r := by
      rw [hsplit, List.getElem?_append_right (by omega), hdropg]
      simp [hlen]
    rw [SearchFiles.searchFile, searchGroups_eq_filter]
    refine List.mem_filter.2 ⟨?_, hacc⟩
    have := (List.mk_add_mem_enumFrom_iff_getElem?
      (n := 0) (i := ((groups.take g).map List.length).sum) (l := groups.flatten)).2 hget
    simpa using this

theorem claim_C3_witness :
    sampleGroups[1]? = some [sampleRow ['y']] ∧
      SearchFiles.acceptRow (fun _ => true) false (sampleRow ['y']) = true ∧
      ((((sampleGroups.take 1).map List.length).sum, sampleRow ['y']) ∈
        SearchFiles.searchFile (fun _ => true) false sampleGroups) :=
  ⟨rfl, rfl,
    (claim_C3_row_offsets (fun _ => true) false sampleGroups).2.2 1
      (sampleRow ['y']) [] rfl rfl⟩
/-- The main loop over a concatenation of file lists runs the first part
first and continues from its accumulator. -/
theorem mainLoop_append (q : List Char) (ci : Bool) :
    ∀ (l1 l2 : List (String × Except String (List Row)))
      (acc : List (String × List (Nat × Row)) × List String),
      Main.mainLoop q ci acc (l1 ++ l2) =
        Main.mainLoop q ci (Main.mainLoop q ci acc l1) l2 := by
  intro l1
  induction l1 with
  | nil => intro l2 acc; rfl
  | cons f rest ih =>
    intro l2 acc
    rw [List.cons_append, Main.mainLoop, Main.mainLoop]
    exact ih l2 _

/-- The grouped-match component of the main loop does not depend on the
error log accumulated so far. -/
theorem mainLoop_fst_log_indep (q : List Char) (ci : Bool) :
    ∀ (files : List (String × Except String (List Row)))
      (a : List (String × List (Nat × Row))) (lg lg2 : List String),
      (Main.mainLoop q ci (a, lg) files).1 =
        (Main.mainLoop q ci (a, lg2) files).1 := by
  intro files
  induction files with
  | nil => intro a lg lg2; rfl
  | cons f rest ih =>
    intro a lg lg2
    rw [Main.mainLoop, Main.mainLoop]
    exact ih _ _ _

/-- The error log of the main loop is the accumulated log followed by the
names of exactly the files whose read failed, in order. -/
theorem mainLoop_logs (q : List Char) (ci : Bool) :
    ∀ (files : List (String × Except String (List Row)))
      (a : List (String × List (Nat × Row))) (lg : List String),
      (Main.mainLoop q ci (a, lg) files).2 =
        lg ++ files.filterMap Main.errLogName := by
  intro files
  induction files with
  | nil => intro a lg; simp [Main.mainLoop]
  | cons f rest ih =>
    intro a lg
    rw [Main.mainLoop]
    obtain ⟨name, src⟩ := f
    cases src with
    | error e =>
      rw [List.filterMap_cons]
      simp only [Main.errLogName, Main.searchFileMain]
      rw [ih]
      simp
    | ok rows =>
      rw [List.filterMap_cons]
      simp only [Main.errLogName, Main.searchFileMain]
      rw [ih]
      simp

/-- C6: a file whose read fails contributes nothing to the grouped matches
(so no matches are ever emitted for it and the remaining files are
processed as if it were absent), and it is reported in the error log
against its own name exactly once, between the failures of the preceding
and following files. -/
theorem claim_C6_fault_isolation (q : List Char) (ci : Bool)
    (pre post : List (String × Except String (List Row)))
    (name : String) (cause : String) :
    (Main.runMain q ci (pre ++ (name, Except.error cause) :: post)).1 =
      (Main.runMain q ci (pre ++ post)).1
    ∧ (Main.runMain q ci (pre ++ (name, Except.error cause) :: post)).2 =
        pre.filterMap Main.errLogName ++ name :: post.filterMap Main.errLogName := by
  constructor
  · rw [Main.runMain, Main.runMain, mainLoop_append, mainLoop_append,
      Main.mainLoop]
    simp only [Main.searchFileMain, List.isEmpty_nil, if_true]
    obtain ⟨a, lg⟩ := Main.mainLoop q ci ([], []) pre
    exact mainLoop_fst_log_indep q ci post a _ lg
  · rw [Main.runMain, mainLoop_append, Main.mainLoop]
    simp only [Main.searchFileMain, List.isEmpty_nil, if_true]
    rcases hacc : Main.mainLoop q ci ([], []) pre with ⟨a, lg⟩
    have hlg : lg = pre.filterMap Main.errLogName := by
      have h2 := mainLoop_logs q ci pre [] []
      rw [hacc] at h2
      simpa using h2
    rw [mainLoop_logs]
    simp [hlg]
/-- C5 counterexample: in JSONL mode under invert the record is emitted
entirely untransformed, even though its 20-character string exceeds the
trim budget of 5 and trimming would have shortened it; so trimming does not
apply in this output mode, contrary to the claim. -/
theorem claim_C5_cex :
    Format.jsonlValue (fun t => t) true (some fun _ => some (0, 1)) true 5
        [("text", JsVal.vStr "aabbccddeeffgghhiijj".toList)]
      = [("text", JsVal.vStr "aabbccddeeffgghhiijj".toList)]
    ∧ Format.trimToContext (fun _ => some (0, 1)) 5 "aabbccddeeffgghhiijj".toList
        ≠ "aabbccddeeffgghhiijj".toList := by
  constructor
  · rfl
  · intro h
    exact absurd (congrArg List.length h) (by decide)

/-- C5 amended: under invert no highlighting is applied in either output
mode (the markdown cell is independent of the highlighter and of the
terminal state); in markdown mode trimming to the budget still applies
around the first position of a non-inverted match of the same pattern; in
JSONL mode, however, the record is emitted entirely untransformed, so
trimming does not apply there. -/
theorem claim_C5_amended (applyHl : List Char → List Char) (colorize : Bool)
    (rm : Format.RegexMatch) (trim : Nat) (v : JsVal) (row : Row) :
    Format.escapeMarkdownCell applyHl colorize (some rm) true trim v =
      Format.escapeMarkdownCell (fun t => t) false (some rm) true trim v
    ∧ (v ≠ JsVal.vNull → v ≠ JsVal.vUndef → 0 < trim →
        Format.escapeMarkdownCell applyHl colorize (some rm) true trim v =
          Format.escapePipes
            (Format.trimToContext rm trim (Format.stripOuterQuotes (jsonStringify v))))
    ∧ Format.jsonlValue applyHl colorize (some rm) true trim row = row := by
  refine ⟨?_, ?_, ?_⟩
  · cases v <;> simp [Format.escapeMarkdownCell, Format.highlightMatches]
  · intro hn hu ht
    cases v with
    | vNull => exact absurd rfl hn
    | vUndef => exact absurd rfl hu
    | vStr s => simp [Format.escapeMarkdownCell, Format.highlightMatches, ht]
    | vInt n => simp [Format.escapeMarkdownCell, Format.highlightMatches, ht]
    | vBool b => simp [Format.escapeMarkdownCell, Format.highlightMatches, ht]
    | vArr xs => simp [Format.escapeMarkdownCell, Format.highlightMatches, ht]
    | vObj fs => simp [Format.escapeMarkdownCell, Format.highlightMatches, ht]
  · simp [Format.jsonlValue]

theorem claim_C5_witness :
    (JsVal.vStr "aabb".toList ≠ JsVal.vNull) ∧
      (JsVal.vStr "aabb".toList ≠ JsVal.vUndef) ∧ 0 < 3 ∧
      Format.escapeMarkdownCell (fun t => t ++ t) false (some fun _ => none) true 3
          (JsVal.vStr "aabb".toList)
        = Format.escapePipes
            (Format.trimToContext (fun _ => none) 3
              (Format.stripOuterQuotes (jsonStringify (JsVal.vStr "aabb".toList)))) :=
  ⟨by simp, by simp, by decide,
    (claim_C5_amended (fun t => t ++ t) false (fun _ => none) 3
        (JsVal.vStr "aabb".toList) []).2.1 (by simp) (by simp) (by decide)⟩
/-- Length of a JavaScript slice with non-negative indices. -/
theorem jsSlice_length_nonneg (l : List Char) (s e : Int)
    (hs : 0 ≤ s) (he : 0 ≤ e) :
    ((Format.jsSlice l s e).length : Int) =
      max 0 (min e l.length - min s l.length) := by
  rw [Format.jsSlice]
  simp only [if_neg (not_lt.mpr hs), if_neg (not_lt.mpr he),
    List.length_take, List.length_drop]
  omega

/-- C9: when the budget is at least 3 and the text longer than the budget,
the trimmed text is at most 6 characters over the budget (3 for each
ellipsis marker that may be added on the two sides). -/
theorem claim_C9_trim_bound (rmatch : Format.RegexMatch) (maxLength : Nat)
    (text : List Char) (h3 : 3 ≤ maxLength) (hlen : maxLength < text.length) :
    (Format.trimToContext rmatch maxLength text).length ≤ maxLength + 6 := by
  have hcond : ¬(maxLength = 0 ∨ text.length ≤ maxLength) := by omega
  have hdots : Format.dots.length = 3 := rfl
  cases hm : rmatch text with
  | none =>
    simp only [Format.trimToContext, hm, if_neg hcond, List.length_append]
    have hsl := jsSlice_length_nonneg text 0 ((maxLength : Int) - 3)
      (by omega) (by omega)
    omega
  | some p =>
    obtain ⟨i, mlen⟩ := p
    simp only [Format.trimToContext, hm, if_neg hcond]
    have hfd : 2 * Int.fdiv ((maxLength : Int) - (mlen : Int)) 2 ≤
          (maxLength : Int) - (mlen : Int) ∧
        (maxLength : Int) - (mlen : Int) - 1 ≤
          2 * Int.fdiv ((maxLength : Int) - (mlen : Int)) 2 := by
      rw [Int.fdiv_eq_ediv _ (by norm_num)]
      omega
    set ce : Int := Int.fdiv ((maxLength : Int) - (mlen : Int)) 2 with hce
    by_cases hA : max 0 ((i : Int) - ce) = 0
    · simp only [if_pos hA]
      have hsl := jsSlice_length_nonneg text (max 0 ((i : Int) - ce))
        (min (text.length : Int) ((maxLength : Int) - 3))
        (le_max_left 0 _) (by omega)
      split <;> split <;> (try simp only [List.length_append]) <;> omega
    · simp only [if_neg hA]
      have hend0 : (0 : Int) ≤ min (text.length : Int) ((i : Int) + (mlen : Int) + ce) := by
        omega
      by_cases hB : min (text.length : Int) ((i : Int) + (mlen : Int) + ce) =
          (text.length : Int)
      · simp only [if_pos hB]
        have hsl := jsSlice_length_nonneg text
          (max 0 ((text.length : Int) - (maxLength : Int) + 3))
          (min (text.length : Int) ((i : Int) + (mlen : Int) + ce))
          (le_max_left 0 _) hend0
        split <;> split <;> (try simp only [List.length_append]) <;> omega
      · simp only [if_neg hB]
        have hsl := jsSlice_length_nonneg text (max 0 ((i : Int) - ce))
          (min (text.length : Int) ((i : Int) + (mlen : Int) + ce))
          (le_max_left 0 _) hend0
        split <;> split <;> (try simp only [List.length_append]) <;> omega

theorem claim_C9_witness :
    3 ≤ 8 ∧ 8 < "aaaaaaaaaabbcccccccccc".toList.length ∧
      (Format.trimToContext (fun _ => some (10, 2)) 8
        "aaaaaaaaaabbcccccccccc".toList).length ≤ 8 + 6 :=
  ⟨by decide, by decide,
    claim_C9_trim_bound (fun _ => some (10, 2)) 8 "aaaaaaaaaabbcccccccccc".toList
      (by decide) (by decide)⟩
